import Mathlib

/-!
Verification of the tabular utility library in `functions/utils.py`
(Multiregional ccRCC repository).

The Python functions operate on `pandas.Series`-like labeled sequences.
We embed a labeled sequence as an association list of (key, value) pairs,
keeping the order in which rows appear.  A Python `set` of strings is
embedded as its (duplicate-free) iteration list; since CPython set
iteration order is unspecified, only extensional (order-insensitive)
facts are proved about values that pass through a set.
-/

namespace CcrccUtils

/-- Sample identifiers (pandas index labels). -/
abbrev Key := String

/-- Embedding of a pandas Series with value type `α`: the ordered list of
(index label, value) rows. -/
structure Series (α : Type) where
  entries : List (Key × α)
deriving DecidableEq, Repr

namespace Series

/-- The index of the series: its key list, in row order. -/
def index {α : Type} (s : Series α) : List Key :=
  s.entries.map Prod.fst

/-- First value stored at key `k`, if any (pandas lookup on a unique index). -/
def lookupKey {α : Type} (k : Key) : List (Key × α) → Option α
  | [] => none
  | kv :: rest => if kv.1 = k then some kv.2 else lookupKey k rest

/-- Value of the series at key `k`, if present. -/
def get? {α : Type} (s : Series α) (k : Key) : Option α :=
  lookupKey k s.entries

/-- Embedding of `df.loc[list(cs)]` for a list of labels `cs` that are all
present in the (unique) index: reindex the series to the labels `cs`. -/
def loc {α : Type} (s : Series α) (cs : List Key) : Series α :=
  ⟨cs.filterMap (fun k => (s.get? k).map (fun v => (k, v)))⟩

end Series

/-- Embedding of the common-index computation inside `to_common_samples`:
`cs = set(df_list[0].index)` intersected with every later index.  The
Python value is a set; we keep a duplicate-free list of keys. -/
def commonKeys {α : Type} : List (Series α) → List Key
  | [] => []
  | d :: ds => ds.foldl (fun acc s => acc.filter (fun k => decide (k ∈ s.index))) d.index.dedup

/-- Embedding of `to_common_samples` (utils.py lines 64-76).  The first
component records whether the `No common samples!` warning fired
(`len(cs) < 1`); the second is `[df_list[i].loc[list(cs)] ...]`. -/
def to_common_samples {α : Type} (l : List (Series α)) : Bool × List (Series α) :=
  let cs := commonKeys l
  (decide (cs.length < 1), l.map (fun s => s.loc cs))

namespace Series

theorem lookupKey_isSome_iff {α : Type} (k : Key) (e : List (Key × α)) :
    (lookupKey k e).isSome = true ↔ k ∈ e.map Prod.fst := by
  induction e with
  | nil => simp [lookupKey]
  | cons kv rest ih =>
    by_cases h : kv.1 = k
    · simp [lookupKey, h]
    · simp [lookupKey, h, ih, Ne.symm h]

theorem get?_isSome_iff {α : Type} (s : Series α) (k : Key) :
    (s.get? k).isSome = true ↔ k ∈ s.index :=
  lookupKey_isSome_iff k s.entries

theorem mem_index_of_get?_eq_some {α : Type} (s : Series α) (k : Key) (v : α)
    (h : s.get? k = some v) : k ∈ s.index := by
  rw [← get?_isSome_iff, h]
  rfl

/-- Keys of a `loc` restriction: exactly the requested labels that exist. -/
theorem loc_index {α : Type} (s : Series α) (cs : List Key) :
    (s.loc cs).index = cs.filter (fun k => (s.get? k).isSome) := by
  induction cs with
  | nil => rfl
  | cons c rest ih =>
    simp only [loc, index, List.filterMap_cons] at *
    cases h : s.get? c with
    | none => simpa [h] using ih
    | some v => simpa [h] using ih

/-- If every requested label exists in the series, `loc` keeps them all. -/
theorem loc_index_of_subset {α : Type} (s : Series α) (cs : List Key)
    (h : ∀ k ∈ cs, k ∈ s.index) : (s.loc cs).index = cs := by
  rw [loc_index]
  rw [List.filter_eq_self]
  intro k hk
  exact (get?_isSome_iff s k).mpr (h k hk)

/-- `loc` preserves the stored value at any requested, existing label. -/
theorem loc_get? {α : Type} (s : Series α) (cs : List Key) (k : Key)
    (hmem : k ∈ cs) (hex : k ∈ s.index) : (s.loc cs).get? k = s.get? k := by
  rw [← get?_isSome_iff] at hex
  simp only [loc, get?] at *
  induction cs with
  | nil => cases hmem
  | cons c rest ih =>
    rw [List.filterMap_cons]
    cases hc : lookupKey c s.entries with
    | none =>
      simp only [Option.map_none']
      rcases List.mem_cons.mp hmem with hk | hk
      · subst hk
        rw [hc] at hex
        cases hex
      · exact ih hk
    | some w =>
      simp only [Option.map_some']
      by_cases hck : c = k
      · subst hck
        simp [lookupKey, hc]
      · rw [show lookupKey k ((c, w) ::
              List.filterMap (fun k => Option.map (fun v => (k, v)) (lookupKey k s.entries))
                rest) =
            lookupKey k
              (List.filterMap (fun k => Option.map (fun v => (k, v)) (lookupKey k s.entries))
                rest) from if_neg hck]
        rcases List.mem_cons.mp hmem with hk | hk
        · exact absurd hk.symm hck
        · exact ih hk

end Series

/-- Membership in the common key list: a key survives iff it is in the head
index and in every later index. -/
theorem commonKeys_foldl_mem {α : Type} (ds : List (Series α)) (acc : List Key) (k : Key) :
    k ∈ ds.foldl (fun acc s => acc.filter (fun k => decide (k ∈ s.index))) acc ↔
      k ∈ acc ∧ ∀ s ∈ ds, k ∈ s.index := by
  induction ds generalizing acc with
  | nil => simp
  | cons d rest ih =>
    simp only [List.foldl_cons, ih, List.mem_filter, decide_eq_true_eq, List.mem_cons]
    constructor
    · rintro ⟨⟨h1, h2⟩, h3⟩
      exact ⟨h1, fun s hs => by rcases hs with rfl | hs; exact h2; exact h3 s hs⟩
    · rintro ⟨h1, h2⟩
      exact ⟨⟨h1, h2 d (Or.inl rfl)⟩, fun s hs => h2 s (Or.inr hs)⟩

theorem commonKeys_mem {α : Type} (d : Series α) (ds : List (Series α)) (k : Key) :
    k ∈ commonKeys (d :: ds) ↔ ∀ s ∈ d :: ds, k ∈ s.index := by
  simp only [commonKeys, commonKeys_foldl_mem, List.mem_dedup, List.mem_cons]
  constructor
  · rintro ⟨h1, h2⟩ s hs
    rcases hs with rfl | hs
    · exact h1
    · exact h2 s hs
  · intro h
    exact ⟨h d (Or.inl rfl), fun s hs => h s (Or.inr hs)⟩

theorem commonKeys_foldl_nodup {α : Type} (ds : List (Series α)) (acc : List Key)
    (h : acc.Nodup) :
    (ds.foldl (fun acc s => acc.filter (fun k => decide (k ∈ s.index))) acc).Nodup := by
  induction ds generalizing acc with
  | nil => exact h
  | cons d rest ih => exact ih _ (List.Nodup.filter _ h)

theorem commonKeys_nodup {α : Type} (l : List (Series α)) : (commonKeys l).Nodup := by
  cases l with
  | nil => exact List.nodup_nil
  | cons d ds => exact commonKeys_foldl_nodup ds _ (List.nodup_dedup _)

theorem commonKeys_subset_index {α : Type} (l : List (Series α)) (hne : l ≠ [])
    (s : Series α) (hs : s ∈ l) (k : Key) (hk : k ∈ commonKeys l) : k ∈ s.index := by
  obtain ⟨d, ds, rfl⟩ := List.exists_cons_of_ne_nil hne
  exact (commonKeys_mem d ds k).mp hk s hs

/-- Pairs of a list zipped with its own image under `f`. -/
theorem mem_zip_map {α β : Type} (l : List α) (f : α → β) (p : α × β)
    (hp : p ∈ l.zip (l.map f)) : p.2 = f p.1 ∧ p.1 ∈ l := by
  induction l with
  | nil => cases hp
  | cons a rest ih =>
    rcases List.mem_cons.mp hp with h | h
    · rw [h]
      exact ⟨rfl, List.mem_cons_self a rest⟩
    · rcases ih h with ⟨h1, h2⟩
      exact ⟨h1, List.mem_cons_of_mem a h2⟩

/-- C3: for a non-empty list of labeled sequences (with unique indexes), the
key set of every output of `to_common_samples` is exactly the intersection of
all input key sets, values at those keys are preserved, and outputs are in the
same positional order (the i-th output is the restriction of the i-th input,
expressed here by zipping inputs with outputs). -/
theorem to_common_samples_alignment {α : Type} (l : List (Series α))
    (hne : l ≠ []) (hnd : ∀ s ∈ l, s.index.Nodup) :
    (to_common_samples l).2.length = l.length ∧
    ∀ p ∈ l.zip (to_common_samples l).2,
      (∀ k : Key, k ∈ p.2.index ↔ ∀ s ∈ l, k ∈ s.index) ∧
      (∀ k : Key, (∀ s ∈ l, k ∈ s.index) → p.2.get? k = p.1.get? k) := by
  refine ⟨List.length_map _ _, ?_⟩
  intro p hp
  obtain ⟨hp2, hp1⟩ := mem_zip_map l (fun s => s.loc (commonKeys l)) p hp
  obtain ⟨d, ds, rfl⟩ := List.exists_cons_of_ne_nil hne
  have hloc : p.2.index = commonKeys (d :: ds) := by
    rw [hp2]
    exact Series.loc_index_of_subset _ _
      (fun k hk => commonKeys_subset_index _ (List.cons_ne_nil d ds) _ hp1 k hk)
  constructor
  · intro k
    rw [hloc]
    exact commonKeys_mem d ds k
  · intro k hk
    have hkc : k ∈ commonKeys (d :: ds) := (commonKeys_mem d ds k).mpr hk
    rw [hp2]
    exact Series.loc_get? _ _ _ hkc (hk _ hp1)

/-- Witness for C3 at a concrete pair of integer-valued series. -/
theorem to_common_samples_alignment_witness :
    ([⟨[("a", (1 : ℤ)), ("b", 2)]⟩, ⟨[("b", (5 : ℤ)), ("c", 7)]⟩] : List (Series ℤ)) ≠ [] ∧
    (∀ s ∈ ([⟨[("a", (1 : ℤ)), ("b", 2)]⟩, ⟨[("b", (5 : ℤ)), ("c", 7)]⟩] : List (Series ℤ)),
      s.index.Nodup) ∧
    ((to_common_samples
        ([⟨[("a", (1 : ℤ)), ("b", 2)]⟩, ⟨[("b", (5 : ℤ)), ("c", 7)]⟩] : List (Series ℤ))).2.length
      = ([⟨[("a", (1 : ℤ)), ("b", 2)]⟩, ⟨[("b", (5 : ℤ)), ("c", 7)]⟩] : List (Series ℤ)).length ∧
    ∀ p ∈ ([⟨[("a", (1 : ℤ)), ("b", 2)]⟩, ⟨[("b", (5 : ℤ)), ("c", 7)]⟩] : List (Series ℤ)).zip
        (to_common_samples
          ([⟨[("a", (1 : ℤ)), ("b", 2)]⟩, ⟨[("b", (5 : ℤ)), ("c", 7)]⟩] : List (Series ℤ))).2,
      (∀ k : Key, k ∈ p.2.index ↔
        ∀ s ∈ ([⟨[("a", (1 : ℤ)), ("b", 2)]⟩, ⟨[("b", (5 : ℤ)), ("c", 7)]⟩] : List (Series ℤ)),
          k ∈ s.index) ∧
      (∀ k : Key,
        (∀ s ∈ ([⟨[("a", (1 : ℤ)), ("b", 2)]⟩, ⟨[("b", (5 : ℤ)), ("c", 7)]⟩] : List (Series ℤ)),
          k ∈ s.index) → p.2.get? k = p.1.get? k)) :=
  ⟨by decide, by decide, to_common_samples_alignment _ (by decide) (by decide)⟩

/-- C7: when no key is common to all inputs, `to_common_samples` still
returns (it is a total function in this embedding), the warning flag is set,
and every output sequence is empty. -/
theorem to_common_samples_empty_intersection {α : Type} (l : List (Series α))
    (hne : l ≠ []) (hemp : ¬ ∃ k : Key, ∀ s ∈ l, k ∈ s.index) :
    (to_common_samples l).1 = true ∧ ∀ s ∈ (to_common_samples l).2, s.entries = [] := by
  have hcs : commonKeys l = [] := by
    rw [List.eq_nil_iff_forall_not_mem]
    intro k hk
    obtain ⟨d, ds, rfl⟩ := List.exists_cons_of_ne_nil hne
    exact hemp ⟨k, (commonKeys_mem d ds k).mp hk⟩
  constructor
  · simp [to_common_samples, hcs]
  · intro s hs
    simp only [to_common_samples, hcs, List.mem_map] at hs
    obtain ⟨t, _, rfl⟩ := hs
    rfl

/-- Witness for C7 at two series with disjoint indexes. -/
theorem to_common_samples_empty_intersection_witness :
    ([⟨[("a", (1 : ℤ))]⟩, ⟨[("b", (2 : ℤ))]⟩] : List (Series ℤ)) ≠ [] ∧
    (¬ ∃ k : Key, ∀ s ∈ ([⟨[("a", (1 : ℤ))]⟩, ⟨[("b", (2 : ℤ))]⟩] : List (Series ℤ)),
      k ∈ s.index) ∧
    ((to_common_samples ([⟨[("a", (1 : ℤ))]⟩, ⟨[("b", (2 : ℤ))]⟩] : List (Series ℤ))).1 = true ∧
      ∀ s ∈ (to_common_samples ([⟨[("a", (1 : ℤ))]⟩, ⟨[("b", (2 : ℤ))]⟩] : List (Series ℤ))).2,
        s.entries = []) := by
  have hemp : ¬ ∃ k : Key, ∀ s ∈ ([⟨[("a", (1 : ℤ))]⟩, ⟨[("b", (2 : ℤ))]⟩] : List (Series ℤ)),
      k ∈ s.index := by
    rintro ⟨k, hk⟩
    have h1 := hk ⟨[("a", (1 : ℤ))]⟩ (List.mem_cons_self _ _)
    have h2 := hk ⟨[("b", (2 : ℤ))]⟩ (List.mem_cons.mpr (Or.inr (List.mem_cons_self _ _)))
    simp only [Series.index, List.map_cons, List.map_nil, List.mem_singleton] at h1 h2
    rw [h1] at h2
    exact absurd h2 (by decide)
  exact ⟨by decide, hemp, to_common_samples_empty_intersection _ (by decide) hemp⟩

theorem foldl_filter_of_superset {α : Type} (xs : List (Series α)) (acc : List Key)
    (h : ∀ s ∈ xs, ∀ k ∈ acc, k ∈ s.index) :
    xs.foldl (fun acc s => acc.filter (fun k => decide (k ∈ s.index))) acc = acc := by
  induction xs with
  | nil => rfl
  | cons x rest ih =>
    have hx : acc.filter (fun k => decide (k ∈ x.index)) = acc := by
      rw [List.filter_eq_self]
      intro k hk
      exact decide_eq_true (h x (List.mem_cons_self _ _) k hk)
    simp only [List.foldl_cons, hx]
    exact ih (fun s hs k hk => h s (List.mem_cons_of_mem _ hs) k hk)

theorem commonKeys_of_restricted {α : Type} (l : List (Series α)) (hne : l ≠ []) :
    commonKeys ((to_common_samples l).2) = commonKeys l := by
  obtain ⟨d, ds, rfl⟩ := List.exists_cons_of_ne_nil hne
  have hidx : ∀ s ∈ d :: ds, (s.loc (commonKeys (d :: ds))).index = commonKeys (d :: ds) :=
    fun s hs => Series.loc_index_of_subset _ _
      (fun k hk => commonKeys_subset_index _ (List.cons_ne_nil d ds) _ hs k hk)
  show commonKeys ((d :: ds).map (fun s => s.loc (commonKeys (d :: ds)))) = _
  rw [List.map_cons]
  show (ds.map (fun s => s.loc (commonKeys (d :: ds)))).foldl
      (fun acc s => acc.filter (fun k => decide (k ∈ s.index)))
      ((d.loc (commonKeys (d :: ds))).index.dedup) = _
  rw [hidx d (List.mem_cons_self _ _), List.dedup_eq_self.mpr (commonKeys_nodup _)]
  refine foldl_filter_of_superset _ _ ?_
  intro s hs k hk
  rcases List.mem_map.mp hs with ⟨t, ht, rfl⟩
  rw [hidx t (List.mem_cons_of_mem _ ht)]
  exact hk

/-- C8: aligning twice yields the same key sets as aligning once. -/
theorem to_common_samples_idempotent {α : Type} (l : List (Series α)) (hne : l ≠ []) :
    ((to_common_samples (to_common_samples l).2).2).map (fun s => s.index.toFinset)
      = ((to_common_samples l).2).map (fun s => s.index.toFinset) := by
  have hcs2 := commonKeys_of_restricted l hne
  have hidx : ∀ s ∈ (to_common_samples l).2, s.index = commonKeys l := by
    intro s hs
    obtain ⟨d, ds, rfl⟩ := List.exists_cons_of_ne_nil hne
    rcases List.mem_map.mp hs with ⟨t, ht, rfl⟩
    exact Series.loc_index_of_subset _ _
      (fun k hk => commonKeys_subset_index _ (List.cons_ne_nil d ds) _ ht k hk)
  show (((to_common_samples l).2).map
      (fun s => s.loc (commonKeys (to_common_samples l).2))).map (fun s => s.index.toFinset) = _
  rw [List.map_map]
  refine List.map_congr_left ?_
  intro s hs
  show ((s.loc (commonKeys (to_common_samples l).2)).index).toFinset = s.index.toFinset
  rw [hcs2]
  rw [Series.loc_index_of_subset s (commonKeys l) (fun k hk => by rw [hidx s hs]; exact hk)]
  rw [hidx s hs]

/-- Witness for C8 at a concrete pair of integer-valued series. -/
theorem to_common_samples_idempotent_witness :
    ([⟨[("a", (1 : ℤ)), ("b", 2)]⟩, ⟨[("b", (5 : ℤ)), ("c", 7)]⟩] : List (Series ℤ)) ≠ [] ∧
    ((to_common_samples
        (to_common_samples
          ([⟨[("a", (1 : ℤ)), ("b", 2)]⟩, ⟨[("b", (5 : ℤ)), ("c", 7)]⟩] : List (Series ℤ))).2).2).map
        (fun s => s.index.toFinset)
      = ((to_common_samples
          ([⟨[("a", (1 : ℤ)), ("b", 2)]⟩, ⟨[("b", (5 : ℤ)), ("c", 7)]⟩] : List (Series ℤ))).2).map
        (fun s => s.index.toFinset) :=
  ⟨by decide, to_common_samples_idempotent _ (by decide)⟩

/-! ### Gene-set catalog (`GeneSet.__init__`, `read_gene_sets`) -/

/-- Embedding of the `GeneSet` object (utils.py lines 7-12).  `genes` is the
iteration list of the Python set `set(genes)` (duplicate-free); CPython's set
iteration order is unspecified, so only order-insensitive facts are proved
about it. -/
structure GeneSet where
  name : String
  descr : String
  genes : List String
  genes_ordered : List String
deriving DecidableEq, Repr

/-- Embedding of `GeneSet.__init__`: the argument iterable, as the list it
iterates as; `self.genes = set(genes)`, `self.genes_ordered = list(genes)`. -/
def GeneSet.make (name descr : String) (genes : List String) : GeneSet :=
  ⟨name, descr, genes.dedup, genes⟩

/-- Whitespace characters removed by Python `str.strip()`. -/
def wsChar (c : Char) : Bool :=
  c = ' ' || c = '\t' || c = '\n' || c = '\r' || c = '\x0c' || c = '\x0b'

/-- Python `str.strip()` on the character list of a string. -/
def pyStrip (s : List Char) : List Char :=
  ((s.dropWhile wsChar).reverse.dropWhile wsChar).reverse

/-- Python `str.strip()`. -/
def pyStripS (s : String) : String := ⟨pyStrip s.data⟩

/-- Accumulator pass of Python `str.split('\t')`: split at every tab, keeping
empty fields, never collapsing separators. -/
def splitTabAux : List Char → List Char → List (List Char)
  | [], cur => [cur.reverse]
  | c :: rest, cur =>
      if c = '\t' then cur.reverse :: splitTabAux rest []
      else splitTabAux rest (c :: cur)

/-- Python `str.split('\t')`. -/
def pySplitTab (s : List Char) : List String :=
  (splitTabAux s []).map (fun cs => (⟨cs⟩ : String))

/-- Embedding of one loop iteration of `read_gene_sets` (utils.py 27-32):
`items = line.strip().split('\t')`, `name = items[0].strip()`,
`description = items[1].strip()` (an index error when there is no second
field), `genes = set([gene.strip() for gene in items[2:]])`. -/
def parseGmtLine (line : String) : Except String (String × GeneSet) :=
  match pySplitTab (pyStrip line.data) with
  | [] => Except.error "list index out of range"
  | [_] => Except.error "list index out of range"
  | name :: descr :: rest =>
      Except.ok (pyStripS name,
        GeneSet.make (pyStripS name) (pyStripS descr) ((rest.map pyStripS).dedup))

/-- Python dict assignment `d[k] = v`: overwrite in place if the key exists,
otherwise append (dict preserves insertion order). -/
def dictInsert (d : List (String × GeneSet)) (kv : String × GeneSet) :
    List (String × GeneSet) :=
  if d.any (fun p => decide (p.1 = kv.1))
  then d.map (fun p => if p.1 = kv.1 then kv else p)
  else d ++ [kv]

/-- Embedding of `read_gene_sets` (utils.py lines 18-34) on the list of lines
of the file: the dict is an insertion-ordered association list, and an
uncaught exception on any line aborts the whole call. -/
def read_gene_sets (lines : List String) : Except String (List (String × GeneSet)) :=
  lines.foldlM (fun d line => (parseGmtLine line).map (fun kv => dictInsert d kv)) []

/-- C9: at construction (the only point a GeneSet is ever written), the
member set equals the set of elements of the ordered member list:
`self.genes == set(self.genes_ordered)` for every constructor argument. -/
theorem geneSet_member_set_invariant (name descr : String) (genes : List String) :
    (GeneSet.make name descr genes).genes.toFinset
      = (GeneSet.make name descr genes).genes_ordered.toFinset := by
  show genes.dedup.toFinset = genes.toFinset
  ext a
  simp [List.mem_toFinset, List.mem_dedup]

/-- C1 counterexample: the spec's malformed two-field line parses successfully
into a GeneSet with zero members; no failure of any kind is raised. -/
theorem read_gene_sets_two_field_cex :
    (read_gene_sets ["SET2\tonly_description"]).toOption
      = some [("SET2", ⟨"SET2", "only_description", [], []⟩)] := by decide

/-- C1 amended: a line with exactly 2 tab-separated fields does not fail; it
produces a catalog entry whose GeneSet has zero members (only a line with
fewer than 2 fields fails, with an index error). -/
theorem read_gene_sets_two_field (line a b : String)
    (h : pySplitTab (pyStrip line.data) = [a, b]) :
    read_gene_sets [line]
      = Except.ok [(pyStripS a, GeneSet.make (pyStripS a) (pyStripS b) [])] := by
  have hp : parseGmtLine line
      = Except.ok (pyStripS a, GeneSet.make (pyStripS a) (pyStripS b) []) := by
    unfold parseGmtLine
    rw [h]
    rfl
  simp [read_gene_sets, List.foldlM, hp, dictInsert, Except.map]

/-- Witness for the amended C1 at the spec's concrete line. -/
theorem read_gene_sets_two_field_witness :
    (pySplitTab (pyStrip "SET2\tonly_description".data) = ["SET2", "only_description"]) ∧
    read_gene_sets ["SET2\tonly_description"]
      = Except.ok [(pyStripS "SET2",
          GeneSet.make (pyStripS "SET2") (pyStripS "only_description") [])] :=
  ⟨by decide, read_gene_sets_two_field "SET2\tonly_description" "SET2" "only_description"
    (by decide)⟩

/-- C2 counterexample: on the spec's example line the ordered member list has
length 2, not 3 — the parser builds a Python set before constructing the
GeneSet, so duplicates (and source order) are lost. -/
theorem gene_set_parse_ordered_cex :
    (parseGmtLine "SET1\tdesc one\tGENE_A\tGENE_B\tGENE_A").toOption.map
        (fun p => (p.2.genes_ordered.length, p.2.genes.length,
                   decide ("GENE_A" ∈ p.2.genes), decide ("GENE_B" ∈ p.2.genes)))
      = some (2, 2, true, true) := by decide

/-- C2 amended: parsing the example line yields members {GENE_A, GENE_B} of
size 2, and an ordered member list that is the de-duplicated member list (in
unspecified set-iteration order) of size 2 — duplicates are not retained. -/
theorem gene_set_parse_amended :
    (parseGmtLine "SET1\tdesc one\tGENE_A\tGENE_B\tGENE_A").toOption.map
        (fun p => (p.1, p.2.genes.length,
                   decide ("GENE_A" ∈ p.2.genes), decide ("GENE_B" ∈ p.2.genes),
                   p.2.genes_ordered.length, decide (p.2.genes_ordered = p.2.genes)))
      = some ("SET1", 2, true, true, 2, true) := by decide

/-! ### Percentile-range binning (`to_linear_ranges`)

Numeric series values are embedded as rationals.  The library's rational
field operations are `@[irreducible]`, so the embedding computes through
`mkRat`-based wrappers (proved equal to the field operations below); this
keeps every definition kernel-evaluable on concrete inputs. -/

def qAdd (a b : ℚ) : ℚ := mkRat (a.num * b.den + b.num * a.den) (a.den * b.den)

def qMul (a b : ℚ) : ℚ := mkRat (a.num * b.num) (a.den * b.den)

def qSub (a b : ℚ) : ℚ := mkRat (a.num * b.den - b.num * a.den) (a.den * b.den)

def qMin (a b : ℚ) : ℚ := if a ≤ b then a else b

def qMax (a b : ℚ) : ℚ := if a ≤ b then b else a

theorem qAdd_eq (a b : ℚ) : qAdd a b = a + b := (Rat.add_def' a b).symm

theorem qSub_eq (a b : ℚ) : qSub a b = a - b := (Rat.sub_def' a b).symm

theorem qMul_eq (a b : ℚ) : qMul a b = a * b := by
  rw [Rat.mul_def, Rat.normalize_eq_mkRat]
  rfl

theorem qMin_eq (a b : ℚ) : qMin a b = min a b := (min_def a b).symm

theorem qMax_eq (a b : ℚ) : qMax a b = max a b := (max_def a b).symm

/-- Python `data.min()` over the series values (the claims assume no NaNs;
the empty-series default is never compared against). -/
def seriesMin (s : Series ℚ) : ℚ :=
  match s.entries.map Prod.snd with
  | [] => 0
  | v :: vs => vs.foldl qMin v

/-- Python `data.max()` over the series values. -/
def seriesMax (s : Series ℚ) : ℚ :=
  match s.entries.map Prod.snd with
  | [] => 0
  | v :: vs => vs.foldl qMax v

/-- String of `n` zero characters, for decimal padding. -/
def zeroString (n : Nat) : String := ⟨List.replicate n '0'⟩

/-- Least `k ≤ 16` such that `q` has a terminating decimal expansion with
`k` fractional digits, computed on the numerator and denominator. -/
def decExp (q : ℚ) : Option Nat :=
  (List.range 17).find? (fun k => decide (q.num * (10 ^ k : Int) % (q.den : Int) = 0))

/-- Python `'{}'.format(x)` for the numbers interpolated into the range
labels: the loop variables are the int 0, the (numpy float) cut points, and
the int 1.  Integers print without a decimal point; the float cut points
print as their shortest decimal literal, here the exact terminating decimal
expansion of the rational value. -/
def pyNumRepr (q : ℚ) : String :=
  if q.den = 1 then toString q.num
  else
    let sign := if q.num < 0 then "-" else ""
    match decExp q with
    | none => sign ++ toString q.num.natAbs ++ "/" ++ toString q.den
    | some k =>
        let ds := toString (q.num.natAbs * 10 ^ k / q.den)
        let ds := if ds.length < k + 1 then zeroString (k + 1 - ds.length) ++ ds else ds
        sign ++ ds.take (ds.length - k) ++ "." ++ ds.drop (ds.length - k)

/-- The label `'{}p<x<{}p'.format(tr, tr2)` (utils.py line 131). -/
def rangeLabel (tr tr2 : ℚ) : String :=
  pyNumRepr tr ++ "p<x<" ++ pyNumRepr tr2 ++ "p"

/-- The row-selection test of one loop iteration (utils.py 124-129):
inclusive lower bound when `tr == 0`, strict lower bound otherwise; the
interval ends are `data.min() + data_range * tr` and `... * tr2`. -/
def binTest (mn rng tr tr2 v : ℚ) : Bool :=
  if tr = 0 then
    decide (qAdd mn (qMul rng tr) ≤ v) && decide (v ≤ qAdd mn (qMul rng tr2))
  else
    decide (qAdd mn (qMul rng tr) < v) && decide (v ≤ qAdd mn (qMul rng tr2))

/-- The loop of `to_linear_ranges` (utils.py 123-132): walk the cut list,
labelling the rows of each interval in turn; `pd.concat(ann)` at the end is
list append in row order. -/
def linearRangesAux (entries : List (Key × ℚ)) (mn rng : ℚ) :
    ℚ → List ℚ → List (Key × String)
  | _, [] => []
  | tr, tr2 :: rest =>
      (entries.filter (fun kv => binTest mn rng tr tr2 kv.2)).map
          (fun kv => (kv.1, rangeLabel tr tr2))
        ++ linearRangesAux entries mn rng tr2 rest

/-- Embedding of `to_linear_ranges` (utils.py lines 110-134): sort the cut
points (`np.sort(ps)`), append the terminal cut 1, and walk the list with
previous threshold `tr` starting at 0. -/
def to_linear_ranges (data : Series ℚ) (ps : List ℚ) : Series String :=
  ⟨linearRangesAux data.entries (seriesMin data)
      (qSub (seriesMax data) (seriesMin data)) 0
      (List.insertionSort (fun a b => a ≤ b) ps ++ [1])⟩

/-- The samples carrying a given label in the output of the binning. -/
def labelSamples (out : Series String) (lab : String) : List Key :=
  (out.entries.filter (fun kv => decide (kv.2 = lab))).map Prod.fst

/-- C5: on data `[0, 25, 50, 75, 100]` with `ps = [0.5]`, the values 0, 25
and 50 receive exactly the label `0p<x<0.5p` and the values 75 and 100
exactly the label `0.5p<x<1p`. -/
theorem to_linear_ranges_example_labels :
    to_linear_ranges ⟨[("s0", 0), ("s1", 25), ("s2", 50), ("s3", 75), ("s4", 100)]⟩
        [mkRat 1 2]
      = ⟨[("s0", "0p<x<0.5p"), ("s1", "0p<x<0.5p"), ("s2", "0p<x<0.5p"),
          ("s3", "0.5p<x<1p"), ("s4", "0.5p<x<1p")]⟩ := by decide

theorem binTest_iff (mn rng tr tr2 v : ℚ) :
    binTest mn rng tr tr2 v = true ↔
      (if tr = 0 then mn + rng * tr ≤ v ∧ v ≤ mn + rng * tr2
       else mn + rng * tr < v ∧ v ≤ mn + rng * tr2) := by
  unfold binTest
  by_cases h : tr = 0 <;> simp [h, qAdd_eq, qMul_eq]

/-- Number of intervals along the walk that contain the value `v`. -/
def binCount (mn rng : ℚ) : ℚ → List ℚ → ℚ → Nat
  | _, [], _ => 0
  | tr, tr2 :: rest, v =>
      (if binTest mn rng tr tr2 v then 1 else 0) + binCount mn rng tr2 rest v

theorem foldl_qMin_le_init (l : List ℚ) (a : ℚ) : l.foldl qMin a ≤ a := by
  induction l generalizing a with
  | nil => exact le_refl a
  | cons x xs ih =>
    calc xs.foldl qMin (qMin a x) ≤ qMin a x := ih _
    _ ≤ a := by rw [qMin_eq]; exact min_le_left a x

theorem foldl_qMin_le_mem (l : List ℚ) (a x : ℚ) (hx : x ∈ l) : l.foldl qMin a ≤ x := by
  induction l generalizing a with
  | nil => cases hx
  | cons y ys ih =>
    rcases List.mem_cons.mp hx with rfl | h
    · calc ys.foldl qMin (qMin a x) ≤ qMin a x := foldl_qMin_le_init _ _
      _ ≤ x := by rw [qMin_eq]; exact min_le_right a x
    · exact ih _ h

theorem init_le_foldl_qMax (l : List ℚ) (a : ℚ) : a ≤ l.foldl qMax a := by
  induction l generalizing a with
  | nil => exact le_refl a
  | cons x xs ih =>
    calc a ≤ qMax a x := by rw [qMax_eq]; exact le_max_left a x
    _ ≤ xs.foldl qMax (qMax a x) := ih _

theorem mem_le_foldl_qMax (l : List ℚ) (a x : ℚ) (hx : x ∈ l) : x ≤ l.foldl qMax a := by
  induction l generalizing a with
  | nil => cases hx
  | cons y ys ih =>
    rcases List.mem_cons.mp hx with rfl | h
    · calc x ≤ qMax a x := by rw [qMax_eq]; exact le_max_right a x
      _ ≤ ys.foldl qMax (qMax a x) := init_le_foldl_qMax _ _
    · exact ih _ h

theorem seriesMin_le (s : Series ℚ) (k : Key) (v : ℚ) (hkv : (k, v) ∈ s.entries) :
    seriesMin s ≤ v := by
  have hv : v ∈ s.entries.map Prod.snd := List.mem_map.mpr ⟨(k, v), hkv, rfl⟩
  unfold seriesMin
  cases h : s.entries.map Prod.snd with
  | nil => rw [h] at hv; cases hv
  | cons v0 vs =>
    rw [h] at hv
    rcases List.mem_cons.mp hv with rfl | hmem
    · exact foldl_qMin_le_init vs v
    · exact foldl_qMin_le_mem vs v0 v hmem

theorem le_seriesMax (s : Series ℚ) (k : Key) (v : ℚ) (hkv : (k, v) ∈ s.entries) :
    v ≤ seriesMax s := by
  have hv : v ∈ s.entries.map Prod.snd := List.mem_map.mpr ⟨(k, v), hkv, rfl⟩
  unfold seriesMax
  cases h : s.entries.map Prod.snd with
  | nil => rw [h] at hv; cases hv
  | cons v0 vs =>
    rw [h] at hv
    rcases List.mem_cons.mp hv with rfl | hmem
    · exact init_le_foldl_qMax vs v
    · exact mem_le_foldl_qMax vs v0 v hmem

theorem count_keys_filter (e : List (Key × ℚ)) (k : Key) (v : ℚ) (t : Key × ℚ → Bool)
    (hnd : (e.map Prod.fst).Nodup) (hkv : (k, v) ∈ e) :
    ((e.filter t).map Prod.fst).count k = if t (k, v) then 1 else 0 := by
  induction e with
  | nil => cases hkv
  | cons p rest ih =>
    rw [List.map_cons, List.nodup_cons] at hnd
    obtain ⟨hp1, hnd'⟩ := hnd
    rcases List.mem_cons.mp hkv with heq | hmem
    · have hnotin : k ∉ (rest.filter t).map Prod.fst := by
        intro hc
        rcases List.mem_map.mp hc with ⟨q, hq, hqk⟩
        rw [← heq] at hp1
        exact hp1 (List.mem_map.mpr ⟨q, (List.mem_filter.mp hq).1, hqk⟩)
      rw [List.filter_cons, ← heq]
      by_cases ht : t (k, v)
      · simp [ht, List.count_eq_zero.mpr hnotin]
      · simp [ht, List.count_eq_zero.mpr hnotin]
    · have hkrest : k ∈ rest.map Prod.fst := List.mem_map.mpr ⟨(k, v), hmem, rfl⟩
      have hpk : p.1 ≠ k := fun hc => hp1 (hc ▸ hkrest)
      rw [List.filter_cons]
      by_cases ht : t p
      · simp only [ht, if_true, List.map_cons]
        rw [List.count_cons_of_ne (Ne.symm hpk)]
        exact ih hnd' hmem
      · simp only [ht, if_false]
        exact ih hnd' hmem

theorem linearRangesAux_count (e : List (Key × ℚ)) (mn rng : ℚ) (k : Key) (v : ℚ)
    (hnd : (e.map Prod.fst).Nodup) (hkv : (k, v) ∈ e) :
    ∀ (tr : ℚ) (l : List ℚ),
      ((linearRangesAux e mn rng tr l).map Prod.fst).count k = binCount mn rng tr l v := by
  intro tr l
  induction l generalizing tr with
  | nil => rfl
  | cons tr2 rest ih =>
    simp only [linearRangesAux]
    rw [List.map_append, List.count_append]
    have hfst : ((e.filter (fun kv => binTest mn rng tr tr2 kv.2)).map
        (fun kv => (kv.1, rangeLabel tr tr2))).map Prod.fst
        = (e.filter (fun kv => binTest mn rng tr tr2 kv.2)).map Prod.fst := by
      rw [List.map_map]
      rfl
    rw [hfst, count_keys_filter e k v _ hnd hkv, ih tr2]
    rfl

theorem linearRangesAux_keys_sub (e : List (Key × ℚ)) (mn rng : ℚ) :
    ∀ (tr : ℚ) (l : List ℚ) (k : Key),
      k ∈ (linearRangesAux e mn rng tr l).map Prod.fst → k ∈ e.map Prod.fst := by
  intro tr l
  induction l generalizing tr with
  | nil => intro k h; cases h
  | cons tr2 rest ih =>
    intro k h
    simp only [linearRangesAux, List.map_append, List.mem_append] at h
    rcases h with h | h
    · rw [List.map_map] at h
      rcases List.mem_map.mp h with ⟨kv, hkv, rfl⟩
      exact List.mem_map.mpr ⟨kv, (List.mem_filter.mp hkv).1, rfl⟩
    · exact ih tr2 k h

theorem binCount_zero (mn rng v : ℚ) :
    ∀ (l : List ℚ) (tr : ℚ),
      (∀ a ∈ tr :: l, 0 < a ∧ v ≤ mn + rng * a) →
      binCount mn rng tr l v = 0 := by
  intro l
  induction l with
  | nil => intro tr _; rfl
  | cons tr2 rest ih =>
    intro tr h
    obtain ⟨htr, hvtr⟩ := h tr (List.mem_cons_self _ _)
    have hbt : ¬ binTest mn rng tr tr2 v = true := by
      rw [binTest_iff, if_neg htr.ne']
      rintro ⟨hlt, _⟩
      exact absurd hvtr (not_le.mpr hlt)
    show (if binTest mn rng tr tr2 v then 1 else 0) + binCount mn rng tr2 rest v = 0
    rw [if_neg hbt, Nat.zero_add]
    exact ih tr2 (fun a ha => h a (List.mem_cons_of_mem _ ha))

theorem binCount_one (mn rng v : ℚ) (hrng : 0 ≤ rng) :
    ∀ (lmid : List ℚ) (w tr : ℚ),
      List.Pairwise (· ≤ ·) (tr :: (lmid ++ [w])) →
      (∀ a ∈ lmid ++ [w], 0 < a) →
      (if tr = 0 then mn + rng * tr ≤ v else mn + rng * tr < v) →
      v ≤ mn + rng * w →
      binCount mn rng tr (lmid ++ [w]) v = 1 := by
  intro lmid
  induction lmid with
  | nil =>
    intro w tr _ _ hlow hub
    show (if binTest mn rng tr w v then 1 else 0) + 0 = 1
    have hbt : binTest mn rng tr w v = true := by
      rw [binTest_iff]
      by_cases h0 : tr = 0
      · rw [if_pos h0]
        rw [if_pos h0] at hlow
        exact ⟨hlow, hub⟩
      · rw [if_neg h0]
        rw [if_neg h0] at hlow
        exact ⟨hlow, hub⟩
    rw [if_pos hbt]
  | cons a lrest ih =>
    intro w tr hpw hpos hlow hub
    show (if binTest mn rng tr a v then 1 else 0) + binCount mn rng a (lrest ++ [w]) v = 1
    have hpw' : List.Pairwise (fun x y => x ≤ y) (a :: (lrest ++ [w])) := by
      have := List.pairwise_cons.mp hpw
      exact this.2
    have hpos' : ∀ b ∈ lrest ++ [w], 0 < b := fun b hb => hpos b (List.mem_cons_of_mem _ hb)
    have ha_pos : 0 < a := hpos a (List.mem_cons_self _ _)
    by_cases hva : v ≤ mn + rng * a
    · have hbt : binTest mn rng tr a v = true := by
        rw [binTest_iff]
        by_cases h0 : tr = 0
        · rw [if_pos h0]
          rw [if_pos h0] at hlow
          exact ⟨hlow, hva⟩
        · rw [if_neg h0]
          rw [if_neg h0] at hlow
          exact ⟨hlow, hva⟩
      rw [if_pos hbt]
      have hz : binCount mn rng a (lrest ++ [w]) v = 0 := by
        apply binCount_zero
        intro b hb
        rcases List.mem_cons.mp hb with rfl | hb'
        · exact ⟨ha_pos, hva⟩
        · refine ⟨hpos' b hb', le_trans hva ?_⟩
          have hab : b ∈ lrest ++ [w] → a ≤ b := (List.pairwise_cons.mp hpw').1 b
          exact add_le_add_left (mul_le_mul_of_nonneg_left (hab hb') hrng) mn
      rw [hz]
    · have hbt : ¬ binTest mn rng tr a v = true := by
        rw [binTest_iff]
        by_cases h0 : tr = 0
        · rw [if_pos h0]
          rintro ⟨_, hup⟩
          exact hva hup
        · rw [if_neg h0]
          rintro ⟨_, hup⟩
          exact hva hup
      rw [if_neg hbt, Nat.zero_add]
      refine ih w a hpw' hpos' ?_ hub
      rw [if_neg ha_pos.ne']
      exact not_le.mp hva

/-- In an association list with duplicate-free keys, a key determines its
value. -/
theorem assoc_value_unique (l : List (Key × String)) (hnd : (l.map Prod.fst).Nodup)
    (k : Key) (l1 l2 : String) (h1 : (k, l1) ∈ l) (h2 : (k, l2) ∈ l) : l1 = l2 := by
  induction l with
  | nil => cases h1
  | cons p rest ih =>
    rw [List.map_cons, List.nodup_cons] at hnd
    obtain ⟨hp1, hnd'⟩ := hnd
    rcases List.mem_cons.mp h1 with he1 | hm1 <;> rcases List.mem_cons.mp h2 with he2 | hm2
    · rw [← he2] at he1
      exact (Prod.mk.injEq _ _ _ _ |>.mp he1).2
    · exfalso
      rw [← he1] at hp1
      exact hp1 (List.mem_map.mpr ⟨(k, l2), hm2, rfl⟩)
    · exfalso
      rw [← he2] at hp1
      exact hp1 (List.mem_map.mpr ⟨(k, l1), hm1, rfl⟩)
    · exact ih hnd' hm1 hm2

theorem labelSamples_mem (out : Series String) (lab : String) (k : Key) :
    k ∈ labelSamples out lab ↔ (k, lab) ∈ out.entries := by
  unfold labelSamples
  constructor
  · intro h
    rcases List.mem_map.mp h with ⟨kv, hkv, rfl⟩
    obtain ⟨hm, hl⟩ := List.mem_filter.mp hkv
    have hlab : kv.2 = lab := of_decide_eq_true hl
    rcases kv with ⟨k', v'⟩
    cases hlab
    exact hm
  · intro h
    exact List.mem_map.mpr ⟨(k, lab), List.mem_filter.mpr ⟨h, by simp⟩, rfl⟩

theorem to_linear_ranges_key_count (data : Series ℚ) (ps : List ℚ)
    (hps : ∀ p ∈ ps, 0 < p ∧ p < 1) (hnd : data.index.Nodup) (k : Key) (v : ℚ)
    (hkv : (k, v) ∈ data.entries) :
    ((to_linear_ranges data ps).index).count k = 1 := by
  have hmn : seriesMin data ≤ v := seriesMin_le data k v hkv
  have hmx : v ≤ seriesMax data := le_seriesMax data k v hkv
  have hrng : (0 : ℚ) ≤ qSub (seriesMax data) (seriesMin data) := by
    rw [qSub_eq]
    exact sub_nonneg.mpr (le_trans hmn hmx)
  have hsort_mem : ∀ a ∈ List.insertionSort (fun a b => a ≤ b) ps, a ∈ ps :=
    fun a ha => (List.perm_insertionSort (fun a b => a ≤ b) ps).mem_iff.mp ha
  have hpos : ∀ a ∈ List.insertionSort (fun a b => a ≤ b) ps ++ [(1 : ℚ)], 0 < a := by
    intro a ha
    rcases List.mem_append.mp ha with h | h
    · exact (hps a (hsort_mem a h)).1
    · rw [List.mem_singleton] at h
      rw [h]
      exact one_pos
  have hsorted : List.Pairwise (fun a b : ℚ => a ≤ b)
      (List.insertionSort (fun a b => a ≤ b) ps) :=
    List.sorted_insertionSort (fun a b => a ≤ b) ps
  have hpw : List.Pairwise (fun a b : ℚ => a ≤ b)
      ((0 : ℚ) :: (List.insertionSort (fun a b => a ≤ b) ps ++ [1])) := by
    rw [List.pairwise_cons]
    constructor
    · exact fun b hb => (hpos b hb).le
    · rw [List.pairwise_append]
      refine ⟨hsorted, List.pairwise_singleton _ _, ?_⟩
      intro a ha b hb
      rw [List.mem_singleton] at hb
      rw [hb]
      exact (hps a (hsort_mem a ha)).2.le
  have hlow : if (0 : ℚ) = 0
      then seriesMin data + qSub (seriesMax data) (seriesMin data) * 0 ≤ v
      else seriesMin data + qSub (seriesMax data) (seriesMin data) * 0 < v := by
    rw [if_pos rfl, mul_zero, add_zero]
    exact hmn
  have hub : v ≤ seriesMin data + qSub (seriesMax data) (seriesMin data) * 1 := by
    rw [qSub_eq]
    have h : seriesMin data + (seriesMax data - seriesMin data) * 1 = seriesMax data := by ring
    rw [h]
    exact hmx
  have hidx : (to_linear_ranges data ps).index
      = (linearRangesAux data.entries (seriesMin data)
          (qSub (seriesMax data) (seriesMin data)) 0
          (List.insertionSort (fun a b => a ≤ b) ps ++ [1])).map Prod.fst := rfl
  rw [hidx, linearRangesAux_count data.entries _ _ k v hnd hkv 0 _]
  exact binCount_one _ _ v hrng (List.insertionSort (fun a b => a ≤ b) ps) 1 0 hpw hpos hlow hub

theorem mem_index_iff_exists_label (out : Series String) (k : Key) :
    (∃ lab : String, k ∈ labelSamples out lab) ↔ k ∈ out.index := by
  constructor
  · rintro ⟨lab, h⟩
    exact List.mem_map.mpr ⟨(k, lab), (labelSamples_mem out lab k).mp h, rfl⟩
  · intro h
    rcases List.mem_map.mp h with ⟨kv, hkv, rfl⟩
    exact ⟨kv.2, (labelSamples_mem out kv.2 kv.1).mpr (by simpa using hkv)⟩

/-- C4: with NaN-free data and cut points strictly between 0 and 1, the
labels produced by `to_linear_ranges` partition the index of the data: the
union of samples across all produced labels is exactly the full index of the
data, and the per-label sample sets are pairwise disjoint. -/
theorem to_linear_ranges_partition (data : Series ℚ) (ps : List ℚ)
    (hps : ∀ p ∈ ps, 0 < p ∧ p < 1) (hnd : data.index.Nodup) :
    (∀ k : Key,
      (∃ lab : String, k ∈ labelSamples (to_linear_ranges data ps) lab) ↔ k ∈ data.index) ∧
    ∀ l1 l2 : String, l1 ≠ l2 → ∀ k : Key,
      k ∈ labelSamples (to_linear_ranges data ps) l1 →
      k ∉ labelSamples (to_linear_ranges data ps) l2 := by
  have hkeys_sub : ∀ k, k ∈ (to_linear_ranges data ps).index → k ∈ data.index := by
    intro k hk
    exact linearRangesAux_keys_sub data.entries _ _ 0 _ k hk
  have hcount1 : ∀ k, k ∈ data.index → ((to_linear_ranges data ps).index).count k = 1 := by
    intro k hk
    rcases List.mem_map.mp hk with ⟨kv, hkv, hfst⟩
    have hm : (k, kv.2) ∈ data.entries := by
      rcases kv with ⟨k', v⟩
      cases hfst
      exact hkv
    exact to_linear_ranges_key_count data ps hps hnd k kv.2 hm
  have hnodup_out : (to_linear_ranges data ps).index.Nodup := by
    rw [List.nodup_iff_count_le_one]
    intro k
    by_cases hk : k ∈ data.index
    · rw [hcount1 k hk]
    · rw [List.count_eq_zero.mpr (fun hc => hk (hkeys_sub k hc))]
      exact Nat.zero_le 1
  constructor
  · intro k
    rw [mem_index_iff_exists_label]
    constructor
    · exact hkeys_sub k
    · intro hk
      have hpk : 0 < ((to_linear_ranges data ps).index).count k := by
        rw [hcount1 k hk]
        exact Nat.one_pos
      exact List.count_pos_iff.mp hpk
  · intro l1 l2 hne k hk1 hk2
    have h1 := (labelSamples_mem _ _ _).mp hk1
    have h2 := (labelSamples_mem _ _ _).mp hk2
    exact hne (assoc_value_unique _ hnodup_out k l1 l2 h1 h2)

/-- Witness for C4 at concrete data and cut points. -/
theorem to_linear_ranges_partition_witness :
    (∀ p ∈ [mkRat 1 2], 0 < p ∧ p < 1) ∧
    (⟨[("s0", 0), ("s1", 25), ("s2", 50), ("s3", 75), ("s4", 100)]⟩ :
        Series ℚ).index.Nodup ∧
    ((∀ k : Key,
        (∃ lab : String, k ∈ labelSamples (to_linear_ranges
            ⟨[("s0", 0), ("s1", 25), ("s2", 50), ("s3", 75), ("s4", 100)]⟩ [mkRat 1 2]) lab)
          ↔ k ∈ (⟨[("s0", 0), ("s1", 25), ("s2", 50), ("s3", 75), ("s4", 100)]⟩ :
              Series ℚ).index) ∧
      ∀ l1 l2 : String, l1 ≠ l2 → ∀ k : Key,
        k ∈ labelSamples (to_linear_ranges
            ⟨[("s0", 0), ("s1", 25), ("s2", 50), ("s3", 75), ("s4", 100)]⟩ [mkRat 1 2]) l1 →
        k ∉ labelSamples (to_linear_ranges
            ⟨[("s0", 0), ("s1", 25), ("s2", 50), ("s3", 75), ("s4", 100)]⟩ [mkRat 1 2]) l2) :=
  ⟨by decide, by decide, to_linear_ranges_partition _ _ (by decide) (by decide)⟩

theorem first_bin_full (e : List (Key × ℚ)) (mn rng : ℚ) (hrng : rng = 0)
    (hv : ∀ kv ∈ e, kv.2 = mn) (c : ℚ) :
    e.filter (fun kv => binTest mn rng 0 c kv.2) = e := by
  rw [List.filter_eq_self]
  intro kv hkv
  refine (binTest_iff mn rng 0 c kv.2).mpr ?_
  rw [if_pos rfl, hrng, hv kv hkv]
  simp

theorem linearRangesAux_zero_rng (e : List (Key × ℚ)) (mn rng : ℚ) (hrng : rng = 0)
    (hv : ∀ kv ∈ e, kv.2 = mn) :
    ∀ (l : List ℚ) (tr : ℚ), 0 < tr → (∀ a ∈ l, 0 < a) →
      linearRangesAux e mn rng tr l = [] := by
  intro l
  induction l with
  | nil => intro tr _ _; rfl
  | cons tr2 rest ih =>
    intro tr htr hall
    simp only [linearRangesAux]
    have hf : e.filter (fun kv => binTest mn rng tr tr2 kv.2) = [] := by
      rw [List.filter_eq_nil_iff]
      intro kv hkv
      rw [binTest_iff, if_neg htr.ne']
      rintro ⟨hlt, _⟩
      rw [hrng, zero_mul, add_zero, hv kv hkv] at hlt
      exact lt_irrefl mn hlt
    rw [hf]
    simp only [List.map_nil, List.nil_append]
    exact ih tr2 (hall tr2 (List.mem_cons_self _ _))
      (fun a ha => hall a (List.mem_cons_of_mem _ ha))

/-- C10: when the maximum of the data equals its minimum (zero value range)
and the cut points lie strictly between 0 and 1, every sample is assigned
the first interval's label (the interval whose lower cut is 0), every later
interval is empty, and the output covers the full input index with that
single label. -/
theorem to_linear_ranges_zero_range (data : Series ℚ) (ps : List ℚ)
    (hps : ∀ p ∈ ps, 0 < p ∧ p < 1)
    (hzr : seriesMax data = seriesMin data) :
    (to_linear_ranges data ps).entries
      = data.entries.map (fun kv =>
          (kv.1, rangeLabel 0
            ((List.insertionSort (fun a b => a ≤ b) ps ++ [(1 : ℚ)]).headI))) := by
  have hrng : qSub (seriesMax data) (seriesMin data) = 0 := by
    rw [qSub_eq, hzr, sub_self]
  have hv : ∀ kv ∈ data.entries, kv.2 = seriesMin data := by
    intro kv hkv
    rcases kv with ⟨k, v⟩
    have hmax := le_seriesMax data k v hkv
    rw [hzr] at hmax
    exact le_antisymm hmax (seriesMin_le data k v hkv)
  have hsort_mem : ∀ a ∈ List.insertionSort (fun a b => a ≤ b) ps, a ∈ ps :=
    fun a ha => (List.perm_insertionSort (fun a b => a ≤ b) ps).mem_iff.mp ha
  show linearRangesAux data.entries (seriesMin data)
      (qSub (seriesMax data) (seriesMin data)) 0
      (List.insertionSort (fun a b => a ≤ b) ps ++ [1]) = _
  cases hs : List.insertionSort (fun a b => a ≤ b) ps with
  | nil =>
    simp only [List.nil_append, linearRangesAux]
    rw [first_bin_full data.entries _ _ hrng hv 1, List.append_nil]
    rfl
  | cons c cs =>
    rw [hs] at hsort_mem
    have hc_pos : 0 < c := (hps c (hsort_mem c (List.mem_cons_self _ _))).1
    have hall_pos : ∀ a ∈ cs ++ [(1 : ℚ)], 0 < a := by
      intro a ha
      rcases List.mem_append.mp ha with h | h
      · exact (hps a (hsort_mem a (List.mem_cons_of_mem _ h))).1
      · rw [List.mem_singleton] at h
        rw [h]
        exact one_pos
    simp only [List.cons_append, linearRangesAux, List.append_eq]
    rw [first_bin_full data.entries _ _ hrng hv c,
      linearRangesAux_zero_rng data.entries _ _ hrng hv (cs ++ [1]) c hc_pos hall_pos,
      List.append_nil]
    rfl

/-- Witness for C10 at a constant series. -/
theorem to_linear_ranges_zero_range_witness :
    (∀ p ∈ [mkRat 1 2], 0 < p ∧ p < 1) ∧
    seriesMax (⟨[("a", 5), ("b", 5)]⟩ : Series ℚ)
      = seriesMin (⟨[("a", 5), ("b", 5)]⟩ : Series ℚ) ∧
    (to_linear_ranges (⟨[("a", 5), ("b", 5)]⟩ : Series ℚ) [mkRat 1 2]).entries
      = (⟨[("a", 5), ("b", 5)]⟩ : Series ℚ).entries.map (fun kv =>
          (kv.1, rangeLabel 0
            ((List.insertionSort (fun a b => a ≤ b) [mkRat 1 2] ++ [(1 : ℚ)]).headI))) :=
  ⟨by decide, by decide, to_linear_ranges_zero_range _ _ (by decide) (by decide)⟩

/-! ### Contingency pivot (`pivot_vectors` with `item_series`) -/

/-- The rows of `pd.DataFrame({name1: vec1, name2: vec2})` for two series
over the same (unique) index: one `(value1, value2)` pair per sample, in the
row order of the first series. -/
def pivotJoin {α β : Type} (v1 : Series α) (v2 : Series β) : List (α × β) :=
  v1.entries.filterMap (fun kv => (v2.get? kv.1).map (fun w => (kv.2, w)))

/-- One cell of `pd.pivot_table(data=sub_df, ..., values='N', aggfunc=sum)`
before the fill: the sum of the `N` column (`item_series(1, sub_df)`, all
ones) over the rows carrying the given value pair — `none` (pandas NaN) when
no row matches. -/
def pivotCellRaw {α β : Type} [DecidableEq α] [DecidableEq β]
    (rows : List (α × β)) (a : α) (b : β) : Option Nat :=
  let g := rows.filter (fun p => decide (p.1 = a) && decide (p.2 = b))
  if g.isEmpty then none else some (g.map (fun _ => 1)).sum

/-- A cell after `.fillna(0).astype(int)`. -/
def pivotCell {α β : Type} [DecidableEq α] [DecidableEq β]
    (rows : List (α × β)) (a : α) (b : β) : ℤ :=
  ((pivotCellRaw rows a b).map (fun n => (n : ℤ))).getD 0

/-- Column labels of the pivot table: the distinct values of the first
vector. -/
def pivotCols {α β : Type} [DecidableEq α] (rows : List (α × β)) : Finset α :=
  (rows.map Prod.fst).toFinset

/-- Row labels of the pivot table: the distinct values of the second
vector. -/
def pivotRows {α β : Type} [DecidableEq β] (rows : List (α × β)) : Finset β :=
  (rows.map Prod.snd).toFinset

/-- Sum over all cells of the pivot table of `pivot_vectors(vec1, vec2)`. -/
def pivotTotal {α β : Type} [DecidableEq α] [DecidableEq β]
    (v1 : Series α) (v2 : Series β) : ℤ :=
  ∑ a in pivotCols (pivotJoin v1 v2), ∑ b in pivotRows (pivotJoin v1 v2),
    pivotCell (pivotJoin v1 v2) a b

theorem sum_map_ones {γ : Type} (l : List γ) : (l.map (fun _ => (1 : ℕ))).sum = l.length := by
  induction l with
  | nil => rfl
  | cons x xs ih => simp [ih, Nat.add_comm]

theorem pivotCell_eq {α β : Type} [DecidableEq α] [DecidableEq β]
    (rows : List (α × β)) (a : α) (b : β) :
    pivotCell rows a b
      = ((rows.filter (fun p => decide (p.1 = a) && decide (p.2 = b))).length : ℤ) := by
  unfold pivotCell pivotCellRaw
  by_cases h : (rows.filter (fun p => decide (p.1 = a) && decide (p.2 = b))).isEmpty
  · rw [if_pos h]
    rw [List.isEmpty_iff] at h
    rw [h]
    rfl
  · rw [if_neg h]
    simp [sum_map_ones]

theorem cell_total {α β : Type} [DecidableEq α] [DecidableEq β] (m : List (α × β))
    (A : Finset α) (B : Finset β)
    (hA : ∀ p ∈ m, p.1 ∈ A) (hB : ∀ p ∈ m, p.2 ∈ B) :
    ∑ a in A, ∑ b in B,
      ((m.filter (fun p => decide (p.1 = a) && decide (p.2 = b))).length : ℤ)
      = m.length := by
  induction m with
  | nil => simp
  | cons p m' ih =>
    have hA' : ∀ q ∈ m', q.1 ∈ A := fun q hq => hA q (List.mem_cons_of_mem _ hq)
    have hB' : ∀ q ∈ m', q.2 ∈ B := fun q hq => hB q (List.mem_cons_of_mem _ hq)
    have hsplit : ∀ (a : α) (b : β),
        (((p :: m').filter (fun q => decide (q.1 = a) && decide (q.2 = b))).length : ℤ)
          = (if p.1 = a ∧ p.2 = b then (1 : ℤ) else 0)
            + ((m'.filter (fun q => decide (q.1 = a) && decide (q.2 = b))).length : ℤ) := by
      intro a b
      rw [List.filter_cons]
      by_cases h : p.1 = a ∧ p.2 = b
      · rw [if_pos (by simpa using h), if_pos h, List.length_cons]
        push_cast
        ring
      · rw [if_neg (by simpa using h), if_neg h, zero_add]
    have hind : ∑ a in A, ∑ b in B, (if p.1 = a ∧ p.2 = b then (1 : ℤ) else 0) = 1 := by
      have hinner : ∀ a : α, ∑ b in B, (if p.1 = a ∧ p.2 = b then (1 : ℤ) else 0)
          = if p.1 = a then (1 : ℤ) else 0 := by
        intro a
        by_cases hpa : p.1 = a
        · simp only [hpa, true_and]
          rw [Finset.sum_ite_eq]
          rw [if_pos (hB p (List.mem_cons_self _ _))]
          simp
        · simp [hpa]
      rw [Finset.sum_congr rfl (fun a _ => hinner a), Finset.sum_ite_eq]
      rw [if_pos (hA p (List.mem_cons_self _ _))]
    calc ∑ a in A, ∑ b in B,
        (((p :: m').filter (fun q => decide (q.1 = a) && decide (q.2 = b))).length : ℤ)
        = ∑ a in A, ∑ b in B,
            ((if p.1 = a ∧ p.2 = b then (1 : ℤ) else 0)
              + ((m'.filter (fun q => decide (q.1 = a) && decide (q.2 = b))).length : ℤ)) := by
          exact Finset.sum_congr rfl (fun a _ => Finset.sum_congr rfl (fun b _ => hsplit a b))
      _ = (∑ a in A, ∑ b in B, (if p.1 = a ∧ p.2 = b then (1 : ℤ) else 0))
            + ∑ a in A, ∑ b in B,
              ((m'.filter (fun q => decide (q.1 = a) && decide (q.2 = b))).length : ℤ) := by
          rw [← Finset.sum_add_distrib]
          exact Finset.sum_congr rfl (fun a _ => Finset.sum_add_distrib)
      _ = 1 + (m'.length : ℤ) := by rw [hind, ih hA' hB']
      _ = ((p :: m').length : ℤ) := by
          rw [List.length_cons]
          push_cast
          ring

theorem filterMap_length_of_isSome {γ δ : Type} (l : List γ) (f : γ → Option δ)
    (h : ∀ x ∈ l, (f x).isSome) : (l.filterMap f).length = l.length := by
  induction l with
  | nil => rfl
  | cons x xs ih =>
    rw [List.filterMap_cons]
    cases hfx : f x with
    | none =>
      have := h x (List.mem_cons_self _ _)
      rw [hfx] at this
      cases this
    | some y =>
      simp only [List.length_cons]
      rw [ih (fun z hz => h z (List.mem_cons_of_mem _ hz))]

/-- C6: for two series of length N sharing a (unique) index, the cells of
the pivot table sum to N, every cell is a non-negative integer, and value
combinations that never co-occur hold the integer 0 (the NaN left by the
aggregation is filled with 0). -/
theorem pivot_vectors_total {α β : Type} [DecidableEq α] [DecidableEq β]
    (v1 : Series α) (v2 : Series β)
    (hidx : v1.index = v2.index) (hnd : v1.index.Nodup) :
    pivotTotal v1 v2 = v1.entries.length ∧
    (∀ (a : α) (b : β), 0 ≤ pivotCell (pivotJoin v1 v2) a b) ∧
    (∀ (a : α) (b : β), (∀ p ∈ pivotJoin v1 v2, ¬(p.1 = a ∧ p.2 = b)) →
      pivotCellRaw (pivotJoin v1 v2) a b = none ∧ pivotCell (pivotJoin v1 v2) a b = 0) := by
  refine ⟨?_, ?_, ?_⟩
  · have hlen : (pivotJoin v1 v2).length = v1.entries.length := by
      apply filterMap_length_of_isSome
      intro kv hkv
      rw [Option.isSome_map']
      rw [Series.get?_isSome_iff, ← hidx]
      exact List.mem_map.mpr ⟨kv, hkv, rfl⟩
    unfold pivotTotal pivotCols pivotRows
    rw [Finset.sum_congr rfl (fun a _ => Finset.sum_congr rfl
      (fun b _ => pivotCell_eq (pivotJoin v1 v2) a b))]
    rw [cell_total (pivotJoin v1 v2) _ _
      (fun p hp => List.mem_toFinset.mpr (List.mem_map.mpr ⟨p, hp, rfl⟩))
      (fun p hp => List.mem_toFinset.mpr (List.mem_map.mpr ⟨p, hp, rfl⟩))]
    rw [hlen]
  · intro a b
    rw [pivotCell_eq]
    exact Int.natCast_nonneg _
  · intro a b hnone
    have hf : (pivotJoin v1 v2).filter
        (fun p => decide (p.1 = a) && decide (p.2 = b)) = [] := by
      rw [List.filter_eq_nil_iff]
      intro p hp
      simpa using hnone p hp
    constructor
    · unfold pivotCellRaw
      rw [if_pos (by rw [hf]; rfl)]
    · rw [pivotCell_eq, hf]
      rfl

/-- Witness for C6 at two concrete string-valued series. -/
theorem pivot_vectors_total_witness :
    (⟨[("a", "x"), ("b", "y"), ("c", "x")]⟩ : Series String).index
      = (⟨[("a", "u"), ("b", "u"), ("c", "w")]⟩ : Series String).index ∧
    (⟨[("a", "x"), ("b", "y"), ("c", "x")]⟩ : Series String).index.Nodup ∧
    (pivotTotal (⟨[("a", "x"), ("b", "y"), ("c", "x")]⟩ : Series String)
        (⟨[("a", "u"), ("b", "u"), ("c", "w")]⟩ : Series String)
      = (⟨[("a", "x"), ("b", "y"), ("c", "x")]⟩ : Series String).entries.length ∧
    (∀ (a : String) (b : String),
      0 ≤ pivotCell (pivotJoin (⟨[("a", "x"), ("b", "y"), ("c", "x")]⟩ : Series String)
        (⟨[("a", "u"), ("b", "u"), ("c", "w")]⟩ : Series String)) a b) ∧
    (∀ (a : String) (b : String),
      (∀ p ∈ pivotJoin (⟨[("a", "x"), ("b", "y"), ("c", "x")]⟩ : Series String)
          (⟨[("a", "u"), ("b", "u"), ("c", "w")]⟩ : Series String), ¬(p.1 = a ∧ p.2 = b)) →
      pivotCellRaw (pivotJoin (⟨[("a", "x"), ("b", "y"), ("c", "x")]⟩ : Series String)
          (⟨[("a", "u"), ("b", "u"), ("c", "w")]⟩ : Series String)) a b = none ∧
      pivotCell (pivotJoin (⟨[("a", "x"), ("b", "y"), ("c", "x")]⟩ : Series String)
          (⟨[("a", "u"), ("b", "u"), ("c", "w")]⟩ : Series String)) a b = 0)) :=
  ⟨by decide, by decide, pivot_vectors_total _ _ (by decide) (by decide)⟩

end CcrccUtils
